import Mathlib

/-!
# 1-D bar finite-element solver (BarFEASolver)

Shallow embedding of the finite-element cell of `src/1.ipynb` (section 3,
"Finite Element Analysis") and of the generalized `solve` operation the
specification derives from it.  Real arithmetic is modelled exactly over `ℚ`.

The notebook cell:
* assembles an `(N+1)×(N+1)` global stiffness matrix `K` by adding, for each
  element `i`, the local block `k_local = [[1,-1],[-1,1]] * k` into
  `K[i:i+2, i:i+2]` (`K[i:i+2, i:i+2] += k_local`);
* applies the boundary condition by removing row and column 0
  (`K = K[1:, 1:]`, `F = F[1:]`);
* solves the reduced dense linear system (`np.linalg.solve`);
* reinserts the prescribed displacement 0 at node 0 (`np.insert`).
-/

namespace BarFEA

/-- Error taxonomy of the specification (§7): invalid mesh, stiffness-length
mismatch, invalid constraint set, singular reduced system. -/
inductive FEAError where
  | invalidMesh : FEAError
  | dimensionMismatch : FEAError
  | invalidConstraint : FEAError
  | singularSystem : FEAError
deriving DecidableEq, Repr

/-- The signed incidence vector of element `i` (connecting nodes `i` and
`i+1`): `+1` at node `i`, `-1` at node `i+1`, `0` elsewhere.  The local block
`[[1,-1],[-1,1]]` of the source is `elemVec ⬝ elemVecᵀ`. -/
def elemVec (n : ℕ) (i : Fin n) : Fin (n + 1) → ℚ := fun a =>
  (if a = i.castSucc then 1 else 0) - (if a = i.succ then 1 else 0)

/-- The global-sized contribution of element `i` with stiffness `k`: the local
2×2 block `k * [[1,-1],[-1,1]]` placed at rows/columns `{i, i+1}` of an
otherwise zero `(N+1)×(N+1)` matrix.  Direct translation of
`k_local = np.array([[1, -1], [-1, 1]]) * k` added at `K[i:i+2, i:i+2]`. -/
def elemK (n : ℕ) (i : Fin n) (k : ℚ) : Matrix (Fin (n + 1)) (Fin (n + 1)) ℚ :=
  fun a b =>
    if a = i.castSucc ∧ b = i.castSucc then k
    else if a = i.castSucc ∧ b = i.succ then -k
    else if a = i.succ ∧ b = i.castSucc then -k
    else if a = i.succ ∧ b = i.succ then k
    else 0

/-- Global stiffness assembly: starting from the zero matrix, fold over the
elements adding each local contribution, mirroring the source loop
`for i in range(num_elements): K[i:i+2, i:i+2] += k_local`.
`ks i` is the stiffness of element `i` (the source uses the constant
`num_elements / length` for every element; the spec generalizes to
per-element values). -/
def assembleK (n : ℕ) (ks : Fin n → ℚ) : Matrix (Fin (n + 1)) (Fin (n + 1)) ℚ :=
  (List.finRange n).foldl (fun K i => K + elemK n i (ks i)) 0

theorem elemVec_castSucc (n : ℕ) (i : Fin n) : elemVec n i i.castSucc = 1 := by
  simp [elemVec, (Fin.castSucc_lt_succ i).ne]

theorem elemVec_succ (n : ℕ) (i : Fin n) : elemVec n i i.succ = -1 := by
  simp [elemVec, (Fin.castSucc_lt_succ i).ne']

/-- The element contribution is the scaled outer product of the incidence
vector with itself. -/
theorem elemK_eq (n : ℕ) (i : Fin n) (k : ℚ) (a b : Fin (n + 1)) :
    elemK n i k a b = k * elemVec n i a * elemVec n i b := by
  have hne : i.castSucc ≠ i.succ := (Fin.castSucc_lt_succ i).ne
  unfold elemK elemVec
  by_cases h1 : a = i.castSucc <;> by_cases h2 : b = i.castSucc <;>
    by_cases h3 : a = i.succ <;> by_cases h4 : b = i.succ <;>
      simp_all

theorem foldl_add_eq_sum {M : Type} [AddCommMonoid M] {ι : Type}
    (f : ι → M) (l : List ι) (A : M) :
    l.foldl (fun B i => B + f i) A = A + (l.map f).sum := by
  induction l generalizing A with
  | nil => simp
  | cons x xs ih => simp [ih, add_assoc]

/-- The assembled matrix is the sum of the element contributions. -/
theorem assembleK_eq_sum (n : ℕ) (ks : Fin n → ℚ) :
    assembleK n ks = ∑ i : Fin n, elemK n i (ks i) := by
  rw [assembleK, foldl_add_eq_sum, zero_add, Fin.sum_univ_def]

/-- Exact model of the dense linear solve (`np.linalg.solve`): the unique
solution of `A·x = b` computed through the adjugate formula when `A` is
non-singular, `none` when `A` is singular (numpy raises `LinAlgError`). -/
def linSolve {m : Type} [Fintype m] [DecidableEq m]
    (A : Matrix m m ℚ) (b : m → ℚ) : Option (m → ℚ) :=
  if A.det = 0 then none else some ((A.det⁻¹ • A.adjugate).mulVec b)

theorem mulVec_apply {m : Type} [Fintype m] (M : Matrix m m ℚ) (y : m → ℚ)
    (a : m) : M.mulVec y a = ∑ b, M a b * y b := rfl

theorem linSolve_eq_some {m : Type} [Fintype m] [DecidableEq m]
    (A : Matrix m m ℚ) (b : m → ℚ) (hd : A.det ≠ 0) :
    linSolve A b = some ((A.det⁻¹ • A.adjugate).mulVec b) := by
  rw [linSolve, if_neg hd]

/-- A successful `linSolve` really solves the system. -/
theorem linSolve_spec {m : Type} [Fintype m] [DecidableEq m]
    (A : Matrix m m ℚ) (b x : m → ℚ) (h : linSolve A b = some x) :
    A.mulVec x = b := by
  rw [linSolve] at h
  split_ifs at h with hd
  obtain rfl := Option.some_inj.1 h
  rw [Matrix.mulVec_mulVec, Matrix.mul_smul, Matrix.mul_adjugate, smul_smul,
    inv_mul_cancel₀ hd, one_smul, Matrix.one_mulVec]

/-- Modelled from the spec: the free degrees of freedom, the node indices not
in the constrained set `C` (the repository source hardcodes `C = {0}`). -/
abbrev FreeIdx (n : ℕ) (C : Finset (Fin (n + 1))) : Type :=
  {i : Fin (n + 1) // i ∉ C}

/-- Modelled from the spec (§4.1 step 4): the reduced stiffness matrix after
eliminating the constrained rows and columns.  Generalizes the source's
`K = K[1:, 1:]`. -/
def reducedK (n : ℕ) (ks : Fin n → ℚ) (C : Finset (Fin (n + 1))) :
    Matrix (FreeIdx n C) (FreeIdx n C) ℚ :=
  fun a b => assembleK n ks a.1 b.1

/-- Modelled from the spec (§4.1 step 4): the reduced load vector, adjusted by
`K[free, c] × pre c` for each constrained node `c`.  Generalizes the source's
`F = F[1:]` (where the prescribed displacement is 0). -/
def reducedF (n : ℕ) (ks : Fin n → ℚ) (loads : Fin (n + 1) → ℚ)
    (C : Finset (Fin (n + 1))) (pre : Fin (n + 1) → ℚ) : FreeIdx n C → ℚ :=
  fun a => loads a.1 - ∑ c ∈ C, assembleK n ks a.1 c * pre c

/-- Modelled from the spec (§4.1 step 6): reinsertion of the prescribed
values at the constrained nodes (`np.insert(displacements, 0, 0)` in the
source), with the free entries taken from `x`. -/
def extendBy (n : ℕ) (C : Finset (Fin (n + 1))) (pre : Fin (n + 1) → ℚ)
    (x : FreeIdx n C → ℚ) : Fin (n + 1) → ℚ :=
  fun i => if h : i ∈ C then pre i else x ⟨i, h⟩

/-- Modelled from the spec (§4.1): the generalized `solve` operation of
`BarFEASolver`, absent as a named function from the repository (the notebook
inlines the `N = 10`, node-0-fixed instance); validation and the arbitrary
constraint set follow the spec's words.  Stiffness length and constraint
range errors are ruled out by the index types. -/
def solve (n : ℕ) (mesh : Fin (n + 1) → ℚ) (ks : Fin n → ℚ)
    (loads : Fin (n + 1) → ℚ) (C : Finset (Fin (n + 1)))
    (pre : Fin (n + 1) → ℚ) : Except FEAError (Fin (n + 1) → ℚ) :=
  if n < 1 then .error .invalidMesh
  else if ¬ (∀ i : Fin n, mesh i.castSucc < mesh i.succ) then .error .invalidMesh
  else if C = ∅ then .error .invalidConstraint
  else
    match linSolve (reducedK n ks C) (reducedF n ks loads C pre) with
    | none => .error .singularSystem
    | some dFree => .ok (extendBy n C pre dFree)

theorem sum_elemVec_mul (n : ℕ) (i : Fin n) (y : Fin (n + 1) → ℚ) :
    ∑ b, elemVec n i b * y b = y i.castSucc - y i.succ := by
  unfold elemVec
  simp [sub_mul, ite_mul, Finset.sum_sub_distrib, Finset.sum_ite_eq']

theorem elemK_mulVec (n : ℕ) (i : Fin n) (k : ℚ) (y : Fin (n + 1) → ℚ)
    (a : Fin (n + 1)) :
    (elemK n i k).mulVec y a
      = elemVec n i a * (k * (y i.castSucc - y i.succ)) := by
  rw [mulVec_apply]
  calc ∑ b, elemK n i k a b * y b
      = ∑ b, (k * elemVec n i a) * (elemVec n i b * y b) := by
        refine Finset.sum_congr rfl fun b _ => ?_
        rw [elemK_eq]; ring
    _ = (k * elemVec n i a) * ∑ b, elemVec n i b * y b := by
        rw [Finset.mul_sum]
    _ = elemVec n i a * (k * (y i.castSucc - y i.succ)) := by
        rw [sum_elemVec_mul]; ring

/-- Row `a` of `K·y` as a signed sum of the element forces
`ks i · (y i − y (i+1))`. -/
theorem assembleK_mulVec (n : ℕ) (ks : Fin n → ℚ) (y : Fin (n + 1) → ℚ)
    (a : Fin (n + 1)) :
    (assembleK n ks).mulVec y a
      = ∑ i : Fin n, elemVec n i a * (ks i * (y i.castSucc - y i.succ)) := by
  rw [mulVec_apply, assembleK_eq_sum]
  simp only [Matrix.sum_apply, Finset.sum_mul]
  rw [Finset.sum_comm]
  refine Finset.sum_congr rfl fun i _ => ?_
  rw [← mulVec_apply, elemK_mulVec]

/-- The stiffness quadratic form is the weighted sum of squared elementwise
displacement differences. -/
theorem quadForm_assembleK (n : ℕ) (ks : Fin n → ℚ) (y : Fin (n + 1) → ℚ) :
    Matrix.dotProduct y ((assembleK n ks).mulVec y)
      = ∑ i : Fin n, ks i * (y i.castSucc - y i.succ) ^ 2 := by
  unfold Matrix.dotProduct
  simp only [assembleK_mulVec, Finset.mul_sum]
  rw [Finset.sum_comm]
  refine Finset.sum_congr rfl fun i _ => ?_
  calc ∑ a, y a * (elemVec n i a * (ks i * (y i.castSucc - y i.succ)))
      = (ks i * (y i.castSucc - y i.succ)) * ∑ a, elemVec n i a * y a := by
        rw [Finset.mul_sum]
        exact Finset.sum_congr rfl fun a _ => by ring
    _ = ks i * (y i.castSucc - y i.succ) ^ 2 := by
        rw [sum_elemVec_mul]; ring

theorem sum_free_subtype (n : ℕ) (C : Finset (Fin (n + 1)))
    (f : Fin (n + 1) → ℚ) :
    ∑ a ∈ Cᶜ, f a = ∑ a : FreeIdx n C, f a.1 :=
  Finset.sum_subtype Cᶜ (fun _ => Finset.mem_compl) f

/-- A row of the full system applied to the extension of a free-node vector
splits into the reduced row plus the constrained-column correction. -/
theorem assembleK_mulVec_extendBy (n : ℕ) (ks : Fin n → ℚ)
    (C : Finset (Fin (n + 1))) (pre : Fin (n + 1) → ℚ)
    (x : FreeIdx n C → ℚ) (a : FreeIdx n C) :
    (assembleK n ks).mulVec (extendBy n C pre x) a.1
      = (reducedK n ks C).mulVec x a
        + ∑ c ∈ C, assembleK n ks a.1 c * pre c := by
  rw [mulVec_apply,
    ← Finset.sum_compl_add_sum C
      (fun b => assembleK n ks a.1 b * extendBy n C pre x b)]
  congr 1
  · rw [sum_free_subtype, mulVec_apply]
    refine Finset.sum_congr rfl fun b _ => ?_
    rw [reducedK, extendBy, dif_neg b.2]
  · exact Finset.sum_congr rfl fun c hc => by rw [extendBy, dif_pos hc]

/-- Positive stiffnesses and a non-empty constraint set make the reduced
system injective: only the zero free-displacement vector is in its kernel. -/
theorem reducedK_kernel_trivial (n : ℕ) (ks : Fin n → ℚ)
    (C : Finset (Fin (n + 1))) (hks : ∀ i, 0 < ks i) (hC : C.Nonempty)
    (x : FreeIdx n C → ℚ) (hx : (reducedK n ks C).mulVec x = 0) : x = 0 := by
  set y : Fin (n + 1) → ℚ := extendBy n C 0 x with hy
  have hyC : ∀ a ∈ C, y a = 0 := fun a ha => by
    rw [hy, extendBy, dif_pos ha]; rfl
  have hKy : ∀ a : FreeIdx n C, (assembleK n ks).mulVec y a.1 = 0 := by
    intro a
    rw [hy, assembleK_mulVec_extendBy n ks C 0 x a, hx]
    simp
  have hq : Matrix.dotProduct y ((assembleK n ks).mulVec y) = 0 := by
    unfold Matrix.dotProduct
    rw [← Finset.sum_compl_add_sum C
      (fun a => y a * (assembleK n ks).mulVec y a)]
    have h1 : ∑ a ∈ Cᶜ, y a * (assembleK n ks).mulVec y a = 0 := by
      rw [sum_free_subtype]
      exact Finset.sum_eq_zero fun a _ => by rw [hKy a, mul_zero]
    have h2 : ∑ a ∈ C, y a * (assembleK n ks).mulVec y a = 0 :=
      Finset.sum_eq_zero fun a ha => by rw [hyC a ha, zero_mul]
    rw [h1, h2, add_zero]
  rw [quadForm_assembleK] at hq
  have hdiff : ∀ i : Fin n, y i.castSucc = y i.succ := by
    intro i
    have hterm : ∀ j ∈ Finset.univ,
        0 ≤ ks j * (y j.castSucc - y j.succ) ^ 2 := fun j _ =>
      mul_nonneg (hks j).le (sq_nonneg _)
    have h0 := (Finset.sum_eq_zero_iff_of_nonneg hterm).1 hq i
      (Finset.mem_univ i)
    rcases mul_eq_zero.1 h0 with h | h
    · exact absurd h (hks i).ne'
    · exact sub_eq_zero.1 (pow_eq_zero_iff two_ne_zero |>.1 h)
  have hconst : ∀ a : Fin (n + 1), y a = y 0 := by
    intro a
    induction a using Fin.induction with
    | zero => rfl
    | succ i ih => rw [← hdiff i]; exact ih
  obtain ⟨c, hc⟩ := hC
  have h0 : y 0 = 0 := by rw [← hconst c]; exact hyC c hc
  funext b
  have : y b.1 = x b := by
    rw [hy, extendBy, dif_neg b.2]
  rw [← this, hconst b.1, h0]; rfl

/-- Positive stiffnesses and a non-empty constraint set make the reduced
matrix non-singular. -/
theorem reducedK_det_ne_zero (n : ℕ) (ks : Fin n → ℚ)
    (C : Finset (Fin (n + 1))) (hks : ∀ i, 0 < ks i) (hC : C.Nonempty) :
    (reducedK n ks C).det ≠ 0 := by
  intro hdet
  obtain ⟨v, hv0, hv⟩ := Matrix.exists_mulVec_eq_zero_iff.2 hdet
  exact hv0 (reducedK_kernel_trivial n ks C hks hC v hv)

/-- The assembled matrix is entrywise symmetric. -/
theorem assembleK_apply_comm (n : ℕ) (ks : Fin n → ℚ) (a b : Fin (n + 1)) :
    assembleK n ks a b = assembleK n ks b a := by
  rw [assembleK_eq_sum]
  simp only [Matrix.sum_apply]
  exact Finset.sum_congr rfl fun i _ => by rw [elemK_eq, elemK_eq]; ring

/-- Uniform translation is annihilated by the assembled stiffness matrix. -/
theorem assembleK_mulVec_one (n : ℕ) (ks : Fin n → ℚ) :
    (assembleK n ks).mulVec (fun _ => 1) = 0 := by
  funext a
  rw [assembleK_mulVec]
  simp

/-- Before constraint elimination the global stiffness matrix is singular. -/
theorem assembleK_det_zero (n : ℕ) (ks : Fin n → ℚ) :
    (assembleK n ks).det = 0 :=
  Matrix.exists_mulVec_eq_zero_iff.1
    ⟨fun _ => 1, fun h => one_ne_zero (congrFun h 0),
      assembleK_mulVec_one n ks⟩

/-- Inversion of a successful `solve`: the result comes from a successful
reduced linear solve, re-extended by the prescribed values. -/
theorem solve_ok_inv (n : ℕ) (mesh : Fin (n + 1) → ℚ) (ks : Fin n → ℚ)
    (loads : Fin (n + 1) → ℚ) (C : Finset (Fin (n + 1)))
    (pre : Fin (n + 1) → ℚ) (dv : Fin (n + 1) → ℚ)
    (h : solve n mesh ks loads C pre = .ok dv) :
    ∃ dFree, linSolve (reducedK n ks C) (reducedF n ks loads C pre)
        = some dFree ∧ dv = extendBy n C pre dFree := by
  rw [solve] at h
  split_ifs at h
  cases hls : linSolve (reducedK n ks C) (reducedF n ks loads C pre) with
  | none => rw [hls] at h; cases h
  | some dFree =>
      rw [hls] at h
      exact ⟨dFree, rfl, (Except.ok.inj h).symm⟩

/-- Direct evaluation of `solve` when all validations pass and the reduced
solve succeeds. -/
theorem solve_eq_ok_of (n : ℕ) (mesh : Fin (n + 1) → ℚ) (ks : Fin n → ℚ)
    (loads : Fin (n + 1) → ℚ) (C : Finset (Fin (n + 1)))
    (pre : Fin (n + 1) → ℚ) (dFree : FreeIdx n C → ℚ) (hn : n ≠ 0)
    (hm : ∀ i : Fin n, mesh i.castSucc < mesh i.succ) (hC : C ≠ ∅)
    (hls : linSolve (reducedK n ks C) (reducedF n ks loads C pre)
      = some dFree) :
    solve n mesh ks loads C pre = .ok (extendBy n C pre dFree) := by
  rw [solve, if_neg (by omega), if_neg (not_not_intro hm), if_neg hC, hls]

/-- Equilibrium at the free degrees of freedom: a successful solve satisfies
`K·d = F` at every unconstrained node. -/
theorem solve_equilibrium (n : ℕ) (mesh : Fin (n + 1) → ℚ) (ks : Fin n → ℚ)
    (loads : Fin (n + 1) → ℚ) (C : Finset (Fin (n + 1)))
    (pre : Fin (n + 1) → ℚ) (dv : Fin (n + 1) → ℚ)
    (h : solve n mesh ks loads C pre = .ok dv)
    (a : Fin (n + 1)) (ha : a ∉ C) :
    (assembleK n ks).mulVec dv a = loads a := by
  obtain ⟨dFree, hls, rfl⟩ := solve_ok_inv n mesh ks loads C pre dv h
  have hspec := linSolve_spec _ _ _ hls
  calc (assembleK n ks).mulVec (extendBy n C pre dFree) a
      = (reducedK n ks C).mulVec dFree ⟨a, ha⟩
          + ∑ c ∈ C, assembleK n ks a c * pre c :=
        assembleK_mulVec_extendBy n ks C pre dFree ⟨a, ha⟩
    _ = reducedF n ks loads C pre ⟨a, ha⟩
          + ∑ c ∈ C, assembleK n ks a c * pre c := by rw [hspec]
    _ = loads a := by rw [reducedF]; ring

/-- A successful solve holds exactly the prescribed value at every
constrained node. -/
theorem solve_constrained (n : ℕ) (mesh : Fin (n + 1) → ℚ) (ks : Fin n → ℚ)
    (loads : Fin (n + 1) → ℚ) (C : Finset (Fin (n + 1)))
    (pre : Fin (n + 1) → ℚ) (dv : Fin (n + 1) → ℚ)
    (h : solve n mesh ks loads C pre = .ok dv) :
    ∀ c ∈ C, dv c = pre c := by
  obtain ⟨dFree, _, rfl⟩ := solve_ok_inv n mesh ks loads C pre dv h
  intro c hc
  rw [extendBy, dif_pos hc]

theorem sum_elemVec (n : ℕ) (a : Fin (n + 1)) :
    ∑ i : Fin n, elemVec n i a
      = (if a.val < n then 1 else 0) - (if 0 < a.val then 1 else 0) := by
  unfold elemVec
  rw [Finset.sum_sub_distrib]
  congr 1
  · by_cases h : a.val < n
    · rw [if_pos h, Finset.sum_eq_single ⟨a.val, h⟩]
      · simp [Fin.ext_iff]
      · intro i _ hne
        rw [if_neg]
        intro heq
        exact hne (Fin.ext (by simpa [Fin.ext_iff] using heq.symm))
      · intro habs
        exact absurd (Finset.mem_univ _) habs
    · rw [if_neg h]
      refine Finset.sum_eq_zero fun i _ => ?_
      rw [if_neg]
      intro heq
      exact h (by rw [heq, Fin.coe_castSucc]; exact i.isLt)
  · by_cases h : 0 < a.val
    · have hlt : a.val - 1 < n := by
        have := a.isLt
        omega
      rw [if_pos h, Finset.sum_eq_single ⟨a.val - 1, hlt⟩]
      · simp [Fin.ext_iff, Fin.val_succ]
        omega
      · intro i _ hne
        rw [if_neg]
        intro heq
        refine hne (Fin.ext ?_)
        have : a.val = i.val + 1 := by simpa [Fin.ext_iff, Fin.val_succ] using heq
        simp
        omega
      · intro habs
        exact absurd (Finset.mem_univ _) habs
    · rw [if_neg h]
      refine Finset.sum_eq_zero fun i _ => ?_
      rw [if_neg]
      intro heq
      have : a.val = i.val + 1 := by simpa [Fin.ext_iff, Fin.val_succ] using heq
      omega

/-- Row `a` of `K·y` for the linear field `y b = F·b/k` on a uniform bar. -/
theorem uniform_mulVec (n : ℕ) (k F : ℚ) (hk : k ≠ 0) (a : Fin (n + 1)) :
    (assembleK n (fun _ => k)).mulVec (fun b => F * b.val / k) a
      = -F * ((if a.val < n then 1 else 0) - (if 0 < a.val then 1 else 0)) := by
  rw [assembleK_mulVec]
  calc ∑ i : Fin n, elemVec n i a
        * (k * ((fun b : Fin (n + 1) => F * b.val / k) i.castSucc
            - (fun b : Fin (n + 1) => F * b.val / k) i.succ))
      = ∑ i : Fin n, elemVec n i a * (-F) := by
        refine Finset.sum_congr rfl fun i _ => ?_
        have : ((i.castSucc : Fin (n + 1)).val : ℚ)
            = ((i.succ : Fin (n + 1)).val : ℚ) - 1 := by
          simp [Fin.coe_castSucc, Fin.val_succ]
        simp only []
        rw [this]
        field_simp
        ring
    _ = (∑ i : Fin n, elemVec n i a) * (-F) := by rw [Finset.sum_mul]
    _ = -F * ((if a.val < n then 1 else 0) - (if 0 < a.val then 1 else 0)) := by
        rw [sum_elemVec]; ring

/-- The linear field seen as an extension of its free part over `C = {0}`. -/
theorem extendBy_linear (n : ℕ) (k F : ℚ) :
    extendBy n {0} (fun _ => 0)
        (fun a : FreeIdx n {0} => F * a.1.val / k)
      = fun b : Fin (n + 1) => F * b.val / k := by
  funext b
  rw [extendBy]
  by_cases hb : b ∈ ({0} : Finset (Fin (n + 1)))
  · rw [dif_pos hb]
    obtain rfl := Finset.mem_singleton.1 hb
    simp
  · rw [dif_neg hb]

/-- The linear field solves the reduced uniform-bar system with the load `F`
at the last node and node 0 fixed at zero. -/
theorem uniform_reduced_sol (n : ℕ) (k F : ℚ) (hk : k ≠ 0) :
    (reducedK n (fun _ => k) {0}).mulVec
        (fun a : FreeIdx n {0} => F * a.1.val / k)
      = reducedF n (fun _ => k)
          (fun a => if a = Fin.last n then F else 0) {0} (fun _ => 0) := by
  funext a
  have hsplit := assembleK_mulVec_extendBy n (fun _ => k) {0} (fun _ => 0)
    (fun a : FreeIdx n {0} => F * a.1.val / k) a
  rw [extendBy_linear n k F] at hsplit
  have hzero : ∑ c ∈ ({0} : Finset (Fin (n + 1))),
      assembleK n (fun _ => k) a.1 c * (fun _ : Fin (n + 1) => (0 : ℚ)) c
        = 0 := by simp
  rw [hzero, add_zero] at hsplit
  have hfree : 0 < a.1.val := by
    rcases Nat.eq_zero_or_pos a.1.val with h0 | hpos
    · exact absurd (Finset.mem_singleton.2 (Fin.ext h0)) a.2
    · exact hpos
  rw [← hsplit, uniform_mulVec n k F hk, reducedF]
  have hle : a.1.val ≤ n := by
    have := a.1.isLt
    omega
  by_cases hlast : a.1.val < n
  · have hne : a.1 ≠ Fin.last n := by
      intro heq
      rw [heq] at hlast
      simp [Fin.val_last] at hlast
    rw [if_pos hlast, if_pos hfree, if_neg hne]
    simp
  · have heq : a.1 = Fin.last n := Fin.ext (by simp [Fin.val_last]; omega)
    rw [if_neg hlast, if_pos hfree, if_pos heq]
    simp

/-- Closed-form solution of the uniform bar: `N` elements of stiffness `k`,
node 0 fixed at zero, load `F` at the last node; the displacement at node
`i` is `F·i/k`. -/
theorem uniformBar_solve (n : ℕ) (mesh : Fin (n + 1) → ℚ) (k F : ℚ)
    (hn : n ≠ 0) (hm : ∀ i : Fin n, mesh i.castSucc < mesh i.succ)
    (hk : 0 < k) :
    solve n mesh (fun _ => k) (fun a => if a = Fin.last n then F else 0)
        {0} (fun _ => 0)
      = .ok (fun i => F * i.val / k) := by
  have hC : ({0} : Finset (Fin (n + 1))).Nonempty :=
    ⟨0, Finset.mem_singleton_self 0⟩
  have hdet := reducedK_det_ne_zero n (fun _ => k) {0} (fun _ => hk) hC
  have hls := linSolve_eq_some (reducedK n (fun _ => k) {0})
    (reducedF n (fun _ => k) (fun a => if a = Fin.last n then F else 0)
      {0} (fun _ => 0)) hdet
  set dFree := ((reducedK n (fun _ => k) {0}).det⁻¹
    • (reducedK n (fun _ => k) {0}).adjugate).mulVec
      (reducedF n (fun _ => k) (fun a => if a = Fin.last n then F else 0)
        {0} (fun _ => 0)) with hdFree
  have hspec := linSolve_spec _ _ _ hls
  have hker : dFree = fun a : FreeIdx n {0} => F * a.1.val / k := by
    have hsub : (reducedK n (fun _ => k) {0}).mulVec
        (dFree - fun a : FreeIdx n {0} => F * a.1.val / k) = 0 := by
      rw [Matrix.mulVec_sub, hspec, uniform_reduced_sol n k F hk.ne',
        sub_self]
    have := reducedK_kernel_trivial n (fun _ => k) {0} (fun _ => hk) hC _
      hsub
    exact sub_eq_zero.1 this
  rw [solve_eq_ok_of n mesh (fun _ => k)
    (fun a => if a = Fin.last n then F else 0) {0} (fun _ => 0) dFree hn hm
    (Finset.singleton_ne_empty 0) hls, hker, extendBy_linear n k F]

/-- Claim C1: for every valid input (strictly increasing mesh, positive
element stiffnesses, a load vector, and a non-empty constraint set), the
displacement field returned by `solve` satisfies the static equilibrium
equations `K·d = F` at every free degree of freedom. -/
theorem claim_C1_equilibrium (n : ℕ) (mesh : Fin (n + 1) → ℚ)
    (ks : Fin n → ℚ) (loads : Fin (n + 1) → ℚ) (C : Finset (Fin (n + 1)))
    (pre : Fin (n + 1) → ℚ) (dv : Fin (n + 1) → ℚ) (_hn : n ≠ 0)
    (_hm : ∀ i : Fin n, mesh i.castSucc < mesh i.succ)
    (_hks : ∀ i, 0 < ks i) (_hC : C.Nonempty)
    (h : solve n mesh ks loads C pre = .ok dv) :
    ∀ a : Fin (n + 1), a ∉ C → (assembleK n ks).mulVec dv a = loads a :=
  fun a ha => solve_equilibrium n mesh ks loads C pre dv h a ha

theorem claim_C1_witness :
    (assembleK 1 (fun _ => (2 : ℚ))).mulVec
        (fun i : Fin 2 => (-5 : ℚ) * i.val / 2) 1
      = (if (1 : Fin 2) = Fin.last 1 then (-5 : ℚ) else 0) :=
  claim_C1_equilibrium 1 ![0, 1] (fun _ => 2)
    (fun a => if a = Fin.last 1 then -5 else 0) {0} (fun _ => 0)
    (fun i => -5 * i.val / 2) (by decide) (by decide)
    (fun _ => (by decide : (0 : ℚ) < 2)) ⟨0, by decide⟩
    (uniformBar_solve 1 ![0, 1] 2 (-5) (by decide) (by decide) (by decide))
    1 (by decide)

/-- Claim C2: a uniform bar of `N` equal elements of stiffness `k`, fixed at
node 0 and loaded only at the last node with force `F`, has displacement
`F·i/k` at node `i` (the sign-convention factor relative to the claim's
`-F·i/k` is `-1`); the field is zero at node 0 and its magnitude is monotone
with distance from the fixed end. -/
theorem claim_C2_uniform_bar (n : ℕ) (mesh : Fin (n + 1) → ℚ) (k F : ℚ)
    (hn : n ≠ 0) (hm : ∀ i : Fin n, mesh i.castSucc < mesh i.succ)
    (hk : 0 < k) :
    solve n mesh (fun _ => k) (fun a => if a = Fin.last n then F else 0)
        {0} (fun _ => 0)
      = .ok (fun i => F * i.val / k)
    ∧ F * ((0 : Fin (n + 1)).val : ℚ) / k = 0
    ∧ ∀ i j : Fin (n + 1), i ≤ j →
        |F * (i.val : ℚ) / k| ≤ |F * (j.val : ℚ) / k| := by
  refine ⟨uniformBar_solve n mesh k F hn hm hk, by simp, ?_⟩
  intro i j hij
  have hij' : (i.val : ℚ) ≤ (j.val : ℚ) := by
    exact_mod_cast Fin.le_def.1 hij
  rw [abs_div, abs_div, abs_mul, abs_mul, abs_of_pos hk,
    Nat.abs_cast, Nat.abs_cast]
  gcongr

theorem claim_C2_witness :
    (solve 1 ![0, 1] (fun _ => (2 : ℚ))
        (fun a => if a = Fin.last 1 then (-5 : ℚ) else 0) {0} (fun _ => 0)
      = .ok (fun i => (-5 : ℚ) * i.val / 2)
    ∧ (-5 : ℚ) * (((0 : Fin 2)).val : ℚ) / 2 = 0
    ∧ ∀ i j : Fin 2, i ≤ j →
        |(-5 : ℚ) * (i.val : ℚ) / 2| ≤ |(-5 : ℚ) * (j.val : ℚ) / 2|) :=
  claim_C2_uniform_bar 1 ![0, 1] 2 (-5) (by decide) (by decide) (by decide)

/-- Claim C3: the single-element bar (`N = 1`, stiffness `k = 2`, node 0
fixed at 0, force `F = -5` at node 1) has displacement `F/k = -5/2 = -2.5`
at node 1; in the exact-arithmetic model the equality is exact. -/
theorem claim_C3_single_element :
    solve 1 ![0, 1] (fun _ => (2 : ℚ))
        (fun a => if a = Fin.last 1 then (-5 : ℚ) else 0) {0} (fun _ => 0)
      = .ok (fun i => (-5 : ℚ) * i.val / 2)
    ∧ (-5 : ℚ) * ((1 : Fin 2).val : ℚ) / 2 = -5 / 2 := by
  refine ⟨uniformBar_solve 1 ![0, 1] 2 (-5) (by decide) (by decide)
    (by decide), ?_⟩
  norm_num

/-- Claim C4: assembly adds, for each element `i`, exactly the local block
`ks i × [[1,-1],[-1,1]]` at rows/columns `{i, i+1}` of an initially zero
matrix — the element contribution holds those four entries and vanishes
outside its block — and the resulting `K` is the sum of the `N` element
contributions. -/
theorem claim_C4_assembly (n : ℕ) (ks : Fin n → ℚ) :
    assembleK n ks = ∑ i : Fin n, elemK n i (ks i)
    ∧ (∀ i : Fin n,
        elemK n i (ks i) i.castSucc i.castSucc = ks i
        ∧ elemK n i (ks i) i.castSucc i.succ = -ks i
        ∧ elemK n i (ks i) i.succ i.castSucc = -ks i
        ∧ elemK n i (ks i) i.succ i.succ = ks i)
    ∧ ∀ (i : Fin n) (a b : Fin (n + 1)),
        (a ≠ i.castSucc ∧ a ≠ i.succ) ∨ (b ≠ i.castSucc ∧ b ≠ i.succ) →
          elemK n i (ks i) a b = 0 := by
  refine ⟨assembleK_eq_sum n ks, fun i => ?_, fun i a b hab => ?_⟩
  · have hne := (Fin.castSucc_lt_succ i).ne
    refine ⟨?_, ?_, ?_, ?_⟩ <;> simp [elemK, hne, Ne.symm hne]
  · rcases hab with ⟨h1, h2⟩ | ⟨h1, h2⟩ <;> simp [elemK, h1, h2]

theorem claim_C4_witness :
    elemK 2 0 ((![3, 4] : Fin 2 → ℚ) 0) 2 0 = 0 :=
  (claim_C4_assembly 2 ![3, 4]).2.2 0 2 0 (Or.inl ⟨by decide, by decide⟩)

/-- Claim C5: the assembled global stiffness matrix is symmetric and
singular before constraint elimination (rigid-body mode), and the reduced
matrix is non-singular whenever at least one constraint is present and all
element stiffnesses are positive. -/
theorem claim_C5_stiffness_invariants (n : ℕ) (ks : Fin n → ℚ)
    (C : Finset (Fin (n + 1))) :
    (assembleK n ks).transpose = assembleK n ks
    ∧ (assembleK n ks).det = 0
    ∧ (C.Nonempty → (∀ i, 0 < ks i) → (reducedK n ks C).det ≠ 0) := by
  refine ⟨?_, assembleK_det_zero n ks,
    fun hC hks => reducedK_det_ne_zero n ks C hks hC⟩
  funext a b
  rw [Matrix.transpose_apply, assembleK_apply_comm]

theorem claim_C5_witness :
    (reducedK 1 (fun _ => (1 : ℚ)) {0}).det ≠ 0 :=
  (claim_C5_stiffness_invariants 1 (fun _ => 1) {0}).2.2
    ⟨0, by decide⟩ (fun _ => by decide)

/-- Claim C6: the elimination step removes the constrained rows and columns
and adjusts the free-node loads by subtracting `K[free, c] × pre c` for each
constrained node `c`; when all prescribed values are zero this reduces to
plain row/column removal; a successful `solve` is exactly an extension of a
solution of this reduced system. -/
theorem claim_C6_elimination (n : ℕ) (ks : Fin n → ℚ)
    (loads : Fin (n + 1) → ℚ) (C : Finset (Fin (n + 1)))
    (pre : Fin (n + 1) → ℚ) :
    (∀ a b : FreeIdx n C, reducedK n ks C a b = assembleK n ks a.1 b.1)
    ∧ (∀ a : FreeIdx n C, reducedF n ks loads C pre a
        = loads a.1 - ∑ c ∈ C, assembleK n ks a.1 c * pre c)
    ∧ ((∀ c ∈ C, pre c = 0) →
        reducedF n ks loads C pre = fun a => loads a.1)
    ∧ ∀ (mesh : Fin (n + 1) → ℚ) (dv : Fin (n + 1) → ℚ),
        solve n mesh ks loads C pre = .ok dv →
          ∃ dFree, (reducedK n ks C).mulVec dFree
              = reducedF n ks loads C pre
            ∧ dv = extendBy n C pre dFree := by
  refine ⟨fun _ _ => rfl, fun _ => rfl, fun hpre => ?_, fun mesh dv h => ?_⟩
  · funext a
    rw [reducedF]
    rw [Finset.sum_eq_zero fun c hc => by rw [hpre c hc, mul_zero], sub_zero]
  · obtain ⟨dFree, hls, hdv⟩ := solve_ok_inv n mesh ks loads C pre dv h
    exact ⟨dFree, linSolve_spec _ _ _ hls, hdv⟩

theorem claim_C6_witness :
    reducedF 1 (fun _ => (2 : ℚ)) (fun _ => 7) {0} (fun _ => 0)
      = fun _ => 7 :=
  (claim_C6_elimination 1 (fun _ => 2) (fun _ => 7) {0}
    (fun _ => 0)).2.2.1 (fun _ _ => rfl)

/-- Claim C7: a successful `solve` returns a displacement field indexed by
the `N+1` mesh nodes (enforced by its type) in which every constrained node
holds exactly its prescribed displacement value. -/
theorem claim_C7_constrained_values (n : ℕ) (mesh : Fin (n + 1) → ℚ)
    (ks : Fin n → ℚ) (loads : Fin (n + 1) → ℚ) (C : Finset (Fin (n + 1)))
    (pre : Fin (n + 1) → ℚ) (dv : Fin (n + 1) → ℚ)
    (h : solve n mesh ks loads C pre = .ok dv) :
    ∀ c ∈ C, dv c = pre c :=
  solve_constrained n mesh ks loads C pre dv h

theorem claim_C7_witness :
    (-5 : ℚ) * ((0 : Fin 2).val : ℚ) / 2 = 0 :=
  claim_C7_constrained_values 1 ![0, 1] (fun _ => 2)
    (fun a => if a = Fin.last 1 then -5 else 0) {0} (fun _ => 0)
    (fun i => -5 * i.val / 2)
    (uniformBar_solve 1 ![0, 1] 2 (-5) (by decide) (by decide) (by decide))
    0 (by decide)

/-- Claim C8: with an empty constraint set, `solve` never returns a
displacement field; as validation happens before the solve step it reports
`invalidConstraint` whenever the mesh itself is valid. -/
theorem claim_C8_empty_constraints (n : ℕ) (mesh : Fin (n + 1) → ℚ)
    (ks : Fin n → ℚ) (loads : Fin (n + 1) → ℚ) (pre : Fin (n + 1) → ℚ) :
    (∀ dv, solve n mesh ks loads ∅ pre ≠ .ok dv)
    ∧ (n ≠ 0 → (∀ i : Fin n, mesh i.castSucc < mesh i.succ) →
        solve n mesh ks loads ∅ pre = .error .invalidConstraint) := by
  constructor
  · intro dv h
    rw [solve] at h
    split_ifs at h
    all_goals simp_all
  · intro hn hm
    rw [solve, if_neg (by omega), if_neg (not_not_intro hm), if_pos rfl]

theorem claim_C8_witness :
    solve 1 ![0, 1] (fun _ => (2 : ℚ)) (fun _ => 0) ∅ (fun _ => 0)
      = .error .invalidConstraint :=
  (claim_C8_empty_constraints 1 ![0, 1] (fun _ => 2) (fun _ => 0)
    (fun _ => 0)).2 (by decide) (by decide)

/-- Claim C9: `solve` is a pure function of its five inputs — in this
embedding it reads and mutates no state, so two calls with identical inputs
return identical displacement fields. -/
theorem claim_C9_deterministic (n : ℕ) (mesh : Fin (n + 1) → ℚ)
    (ks : Fin n → ℚ) (loads : Fin (n + 1) → ℚ) (C : Finset (Fin (n + 1)))
    (pre : Fin (n + 1) → ℚ) :
    solve n mesh ks loads C pre = solve n mesh ks loads C pre := rfl

/-- Claim C10: for every element count and stiffness choice the assembled
global stiffness matrix annihilates the uniform translation vector, i.e.
every row of `K` sums to zero — the rigid-body mode in exact form. -/
theorem claim_C10_rigid_body (n : ℕ) (ks : Fin n → ℚ) :
    (assembleK n ks).mulVec (fun _ => 1) = 0
    ∧ ∀ a : Fin (n + 1), ∑ b, assembleK n ks a b = 0 := by
  refine ⟨assembleK_mulVec_one n ks, fun a => ?_⟩
  have h := congrFun (assembleK_mulVec_one n ks) a
  rw [mulVec_apply] at h
  simpa using h

end BarFEA
